import Mathlib

/-!
Shallow embedding of the core matching/scoring engine of the INPI trademark
conflict screener (`analise_marca.py`): text normalization, Soundex phonetic
encoding, SequenceMatcher-style block similarity, Nice-classification code
extraction, weighted match scoring, risk classification, and the report
generator's top-5 selection.  Python string semantics are modelled on the
ASCII range (all concrete inputs used below are ASCII).
-/
namespace INPI

/-- Model of Python `str.lower` on the ASCII range. -/
def lowerCh (c : Char) : Char :=
  if 'A' ≤ c ∧ c ≤ 'Z' then Char.ofNat (c.toNat + 32) else c

/-- Model of Python `str.upper` on the ASCII range. -/
def upperCh (c : Char) : Char :=
  if 'a' ≤ c ∧ c ≤ 'z' then Char.ofNat (c.toNat - 32) else c

/-- The whitespace characters recognized by Python `str.split()` (ASCII part). -/
def isSpaceCh (c : Char) : Bool :=
  c == ' ' || c == '\t' || c == '\n' || c == '\r' || c == '\x0b' || c == '\x0c'

/-- ASCII letter test, modelling Python `str.isalpha` on the ASCII range. -/
def isAlphaCh (c : Char) : Bool :=
  ('a' ≤ c && c ≤ 'z') || ('A' ≤ c && c ≤ 'Z')

/-- ASCII digit test, modelling Python `str.isdigit` on the ASCII range. -/
def isDigitCh (c : Char) : Bool :=
  '0' ≤ c && c ≤ '9'

/-- Helper for `splitWs`: accumulates the current word (reversed) while
scanning. -/
def splitWsAux : List Char → List Char → List (List Char)
  | [], acc => if acc = [] then [] else [acc.reverse]
  | c :: cs, acc =>
    if isSpaceCh c then
      if acc = [] then splitWsAux cs [] else acc.reverse :: splitWsAux cs []
    else
      splitWsAux cs (c :: acc)

/-- Model of Python `str.split()` (no argument): split on runs of whitespace,
discarding empty fields. -/
def splitWs (l : List Char) : List (List Char) :=
  splitWsAux l []

/-- Model of Python `" ".join(words)`. -/
def joinSp : List (List Char) → List Char
  | [] => []
  | [w] => w
  | w :: ws => w ++ ' ' :: joinSp ws

/-- `normalize_text` from the source: trim, lower-case, and collapse
whitespace runs to single spaces (`" ".join(value.strip().lower().split())`). -/
def normalize_text (s : String) : String :=
  ⟨joinSp (splitWs (s.data.map lowerCh))⟩

/-- The Soundex digit-class table of the source (`mappings.get(ch, "")`):
b f p v → "1"; c g j k q s x z → "2"; d t → "3"; l → "4"; m n → "5";
r → "6"; every other character → `""` (no class). -/
def soundexCode (c : Char) : String :=
  if c == 'b' || c == 'f' || c == 'p' || c == 'v' then "1"
  else if c == 'c' || c == 'g' || c == 'j' || c == 'k' || c == 'q' || c == 's'
      || c == 'x' || c == 'z' then "2"
  else if c == 'd' || c == 't' then "3"
  else if c == 'l' then "4"
  else if c == 'm' || c == 'n' then "5"
  else if c == 'r' then "6"
  else ""

/-- One iteration of the Soundex loop: state is `(encoded, previous_code)`;
the body is `code = mappings.get(char, ""); if code and code != previous_code:
encoded.append(code); previous_code = code`. -/
def soundexStep (st : List Char × String) (c : Char) : List Char × String :=
  let code := soundexCode c
  (if code ≠ "" ∧ code ≠ st.2 then st.1 ++ code.data else st.1, code)

/-- `soundex` from the source: filter the normalized input to alphabetic
characters, keep the first letter verbatim (upper-cased), walk the rest with
`soundexStep`, then right-pad with `"000"` and truncate to 4 characters. -/
def soundex (value : String) : String :=
  match (normalize_text value).data.filter isAlphaCh with
  | [] => "0000"
  | c :: rest =>
    let result := rest.foldl soundexStep ([], soundexCode c)
    ⟨((upperCh c :: result.1) ++ "000".data).take 4⟩

/-- The fixed active/registered status phrase set of the source
(`ACTIVE_STATUSES`). -/
def ACTIVE_STATUSES : List String :=
  ["active", "registered", "granted", "vigente", "deferida", "deferido",
   "em vigor", "registro de marca em vigor"]

/-- `startsWithL hay needle` holds when `needle` is an initial segment of
`hay` (character-by-character). -/
def startsWithL : List Char → List Char → Bool
  | _, [] => true
  | [], _ :: _ => false
  | a :: moreA, b :: moreB => a == b && startsWithL moreA moreB

/-- Model of Python's `needle in hay` substring test. -/
def containsSub : List Char → List Char → Bool
  | [], needle => needle.isEmpty
  | c :: t, needle => startsWithL (c :: t) needle || containsSub t needle

/-- The active-status test of `calculate_match`:
`any(s in status_norm for s in ACTIVE_STATUSES)` with
`status_norm = normalize_text(record.status)`. -/
def active_status (status : String) : Bool :=
  ACTIVE_STATUSES.any fun s => containsSub (normalize_text status).data s.data

/-- `value.replace(":", " ")` on the character list. -/
def replaceColon (l : List Char) : List Char :=
  l.map fun c => if c == ':' then ' ' else c

/-- Python `p.isdigit()`: nonempty and composed entirely of digits. -/
def isDigits (w : List Char) : Bool :=
  !w.isEmpty && w.all isDigitCh

/-- `extract_ncl` from the source: normalize, replace `:` with a space,
split on whitespace, keep the digit-only tokens, and return the last one;
with no digit-only token, return the normalized input unchanged. -/
def extract_ncl (value : String) : String :=
  let v := normalize_text value
  match ((splitWs (replaceColon v.data)).filter isDigits).getLast? with
  | some p => ⟨p⟩
  | none => v

/-- `classify_risk` from the source. -/
def classify_risk (score : Nat) : String :=
  if score ≥ 75 then "HIGH RISK"
  else if score ≥ 45 then "MEDIUM RISK"
  else "LOW RISK"

/-- `suff a b i j` is the length of the longest common substring of `a` and
`b` ending exactly at positions `i` (in `a`) and `j` (in `b`); 0 when the
characters differ or an index is out of range.  This is the quantity
difflib's `find_longest_match` tabulates in its `j2len` dictionary. -/
def suff (a b : List Char) : Nat → Nat → Nat
  | 0, j => if a[0]?.isSome && (a[0]? == b[j]?) then 1 else 0
  | i + 1, 0 => if a[i + 1]?.isSome && (a[i + 1]? == b[0]?) then 1 else 0
  | i + 1, j + 1 =>
    if a[i + 1]?.isSome && (a[i + 1]? == b[j + 1]?) then suff a b i j + 1 else 0

/-- All index pairs `(i, j)` with `i < a.length`, `j < b.length`, listed in
the scan order of `find_longest_match`: `i` ascending, then `j` ascending. -/
def cands (a b : List Char) : List (Nat × Nat) :=
  (List.range a.length).flatMap fun i => (List.range b.length).map fun j => (i, j)

/-- The size of the longest matching block between `a` and `b`. -/
def bestK (a b : List Char) : Nat :=
  (cands a b).foldl (fun m p => max m (suff a b p.1 p.2)) 0

/-- Model of difflib's `find_longest_match` on the whole strings: the first
pair `(i, j)` in scan order attaining the maximal suffix length `K` is the
end point of the chosen block (difflib only updates its best on a strictly larger
`k`, so the earliest maximizer wins); the result is the block
`(i + 1 - K, j + 1 - K, K)`, or `(0, 0, 0)` when nothing matches. -/
def flm (a b : List Char) : Nat × Nat × Nat :=
  if bestK a b = 0 then (0, 0, 0)
  else
    match (cands a b).find? (fun p => suff a b p.1 p.2 == bestK a b) with
    | some (i, j) => (i + 1 - bestK a b, j + 1 - bestK a b, bestK a b)
    | none => (0, 0, 0)

/-- Fuel-indexed recursion computing the total number of matched characters:
the sum of the sizes of difflib's matching blocks, obtained by recursing on
both sides of the longest matching block (`get_matching_blocks`).  Each
recursive call strictly decreases `a.length + b.length` (see `flm_bounds`),
so any fuel of at least that sum computes the fixpoint
(`matchedCountF_fuel`). -/
def matchedCountF : Nat → List Char → List Char → Nat
  | 0, _, _ => 0
  | fuel + 1, a, b =>
    if (flm a b).2.2 = 0 then 0
    else
      matchedCountF fuel (a.take (flm a b).1) (b.take (flm a b).2.1) +
        (flm a b).2.2 +
        matchedCountF fuel (a.drop ((flm a b).1 + (flm a b).2.2))
          (b.drop ((flm a b).2.1 + (flm a b).2.2))

/-- Total number of matched characters between `a` and `b` (difflib's
`sum(block.size)`), run with sufficient fuel. -/
def matchedCount (a b : List Char) : Nat :=
  matchedCountF (a.length + b.length) a b

/-- difflib's `ratio`: `2 * matches / (len(a) + len(b))`, and 1.0 when both
strings are empty (`_calculate_ratio`).  Written with `mkRat` (which builds
exactly the rational `2M / T`, see `pyRatio_eq_div`) so that concrete values
evaluate inside the kernel. -/
def pyRatio (a b : List Char) : ℚ :=
  if a.length + b.length = 0 then 1
  else mkRat (2 * matchedCount a b) (a.length + b.length)

/-- `similarity_ratio` from the source:
`SequenceMatcher(None, normalize_text(a), normalize_text(b)).ratio()`. -/
def similarity_ratio (a b : String) : ℚ :=
  pyRatio (normalize_text a).data (normalize_text b).data

/-- `TrademarkRecord` from the source. -/
structure TrademarkRecord where
  name : String
  nice_class : String
  status : String
  numero : String
  titular : String
deriving DecidableEq, Repr

/-- `MatchResult` from the source (scores are the nonnegative integer values
`min(sum, 100)`, so `Nat`). -/
structure MatchResult where
  record : TrademarkRecord
  text_similarity : ℚ
  phonetic_match : Bool
  same_class : Bool
  score : Nat
deriving DecidableEq, Repr

/-- The similarity-tier bonus of `calculate_match` (the `if/elif` ladder on
`text_similarity`).  The thresholds 0.90, 0.80, 0.70, 0.60 are written with
`mkRat` for kernel computability; `tier_bonus_eq` restates them as plain
fractions. -/
def tier_bonus (sim : ℚ) : Nat :=
  if sim ≥ mkRat 9 10 then 55
  else if sim ≥ mkRat 8 10 then 40
  else if sim ≥ mkRat 7 10 then 25
  else if sim ≥ mkRat 6 10 then 12
  else 0

/-- The full additive capped score of `calculate_match`: tier bonus plus
25 for a phonetic match, 25 for a class match, 15 for an active status,
capped at 100. -/
def match_score (sim : ℚ) (phon cls act : Bool) : Nat :=
  min (tier_bonus sim + (if phon then 25 else 0) + (if cls then 25 else 0) +
    (if act then 15 else 0)) 100

/-- `calculate_match` from the source. -/
def calculate_match (candidate_name candidate_class : String)
    (record : TrademarkRecord) : MatchResult :=
  let text_similarity := similarity_ratio candidate_name record.name
  let phonetic_match := soundex candidate_name == soundex record.name
  let same_class := extract_ncl candidate_class == extract_ncl record.nice_class
  ⟨record, text_similarity, phonetic_match, same_class,
    match_score text_similarity phonetic_match same_class
      (active_status record.status)⟩

/-- The sort key relation of `generate_report`: descending score. -/
def scoreGE (a b : MatchResult) : Prop :=
  b.score ≤ a.score

instance : DecidableRel scoreGE := fun _ b => Nat.decLe b.score _

instance : IsTotal MatchResult scoreGE :=
  ⟨fun a b => Nat.le_total b.score a.score⟩

instance : IsTrans MatchResult scoreGE :=
  ⟨fun _ _ _ hab hbc => Nat.le_trans hbc hab⟩

/-- Model of Python's stable `sorted(matches, key=lambda item: item.score,
reverse=True)`: insertion sort with the descending-score relation, which
keeps the original relative order of equal-score elements. -/
def sortedByScoreDesc (ms : List MatchResult) : List MatchResult :=
  List.insertionSort scoreGE ms

/-- `top_matches` of `generate_report`: the first five results of the stable
descending sort. -/
def top_matches (ms : List MatchResult) : List MatchResult :=
  (sortedByScoreDesc ms).take 5

/-- `highest_score` of `generate_report`: the first selected result's score,
0 when there are no results. -/
def report_highest_score (ms : List MatchResult) : Nat :=
  match top_matches ms with
  | [] => 0
  | m :: _ => m.score

/-- `risk_level` of `generate_report`. -/
def report_risk_level (ms : List MatchResult) : String :=
  classify_risk (report_highest_score ms)

theorem suff_le_fst (a b : List Char) : ∀ i j, suff a b i j ≤ i + 1 := by
  intro i
  induction i with
  | zero => intro j; rw [suff]; split <;> omega
  | succ n ih =>
    intro j
    cases j with
    | zero => rw [suff]; split <;> omega
    | succ m =>
      rw [suff]
      split
      · exact Nat.succ_le_succ (ih m)
      · omega

theorem suff_le_snd (a b : List Char) : ∀ i j, suff a b i j ≤ j + 1 := by
  intro i
  induction i with
  | zero => intro j; rw [suff]; split <;> omega
  | succ n ih =>
    intro j
    cases j with
    | zero => rw [suff]; split <;> omega
    | succ m =>
      rw [suff]
      split
      · exact Nat.succ_le_succ (ih m)
      · omega

theorem suff_cond (a b : List Char) :
    ∀ i j, suff a b i j ≠ 0 → (a[i]?.isSome && (a[i]? == b[j]?)) = true := by
  intro i j h
  match i, j with
  | 0, j =>
    rw [suff] at h
    split at h
    · assumption
    · simp at h
  | i + 1, 0 =>
    rw [suff] at h
    split at h
    · assumption
    · simp at h
  | i + 1, j + 1 =>
    rw [suff] at h
    split at h
    · assumption
    · simp at h

theorem suff_pos (a b : List Char) (i j : Nat) (h : suff a b i j ≠ 0) :
    i < a.length ∧ j < b.length := by
  have hc := suff_cond a b i j h
  rw [Bool.and_eq_true] at hc
  obtain ⟨hs, he⟩ := hc
  rw [Option.isSome_iff_exists] at hs
  obtain ⟨x, hx⟩ := hs
  have heq : a[i]? = b[j]? := beq_iff_eq.mp he
  have hbx : b[j]? = some x := by rw [← heq, hx]
  obtain ⟨h1, -⟩ := List.getElem?_eq_some_iff.mp hx
  obtain ⟨h2, -⟩ := List.getElem?_eq_some_iff.mp hbx
  exact ⟨h1, h2⟩

theorem flm_bounds {a b : List Char} (hk : (flm a b).2.2 ≠ 0) :
    1 ≤ (flm a b).2.2 ∧ (flm a b).1 + (flm a b).2.2 ≤ a.length ∧
      (flm a b).2.1 + (flm a b).2.2 ≤ b.length := by
  by_cases hK : bestK a b = 0
  · exfalso
    apply hk
    unfold flm
    rw [if_pos hK]
  · rcases hf : (cands a b).find? (fun p => suff a b p.1 p.2 == bestK a b) with _ | ⟨i, j⟩
    · exfalso
      apply hk
      unfold flm
      rw [if_neg hK, hf]
    · have hflm : flm a b = (i + 1 - bestK a b, j + 1 - bestK a b, bestK a b) := by
        unfold flm
        rw [if_neg hK, hf]
      have hsuff : suff a b i j = bestK a b := by
        have hp := List.find?_some hf
        exact beq_iff_eq.mp hp
      have hpos : suff a b i j ≠ 0 := by rw [hsuff]; exact hK
      obtain ⟨hia, hjb⟩ := suff_pos a b i j hpos
      have h1 := suff_le_fst a b i j
      have h2 := suff_le_snd a b i j
      rw [hsuff] at h1 h2
      rw [hflm]
      dsimp only
      omega

theorem matchedCountF_nil : ∀ fuel, matchedCountF fuel [] [] = 0 := by
  intro fuel
  cases fuel with
  | zero => rfl
  | succ n => rfl

theorem matchedCountF_fuel :
    ∀ (f1 f2 : Nat) (a b : List Char), a.length + b.length ≤ f1 →
      a.length + b.length ≤ f2 → matchedCountF f1 a b = matchedCountF f2 a b := by
  intro f1
  induction f1 with
  | zero =>
    intro f2 a b h1 _
    have ha : a = [] := by
      cases a with
      | nil => rfl
      | cons x xs => simp at h1
    have hb : b = [] := by
      cases b with
      | nil => rfl
      | cons x xs => simp at h1
    subst ha
    subst hb
    rw [matchedCountF_nil, matchedCountF_nil]
  | succ n ih =>
    intro f2 a b h1 h2
    by_cases hk : (flm a b).2.2 = 0
    · cases f2 with
      | zero =>
        have ha : a = [] := by
          cases a with
          | nil => rfl
          | cons x xs => simp at h2
        have hb : b = [] := by
          cases b with
          | nil => rfl
          | cons x xs => simp at h2
        subst ha
        subst hb
        rw [matchedCountF_nil, matchedCountF_nil]
      | succ m =>
        show (if (flm a b).2.2 = 0 then 0 else _) = (if (flm a b).2.2 = 0 then 0 else _)
        rw [if_pos hk, if_pos hk]
    · obtain ⟨hk1, hka, hkb⟩ := flm_bounds hk
      have hf2 : f2 ≠ 0 := by
        intro h0
        subst h0
        omega
      obtain ⟨m, rfl⟩ : ∃ m, f2 = m + 1 := ⟨f2 - 1, by omega⟩
      show (if (flm a b).2.2 = 0 then 0 else _) = (if (flm a b).2.2 = 0 then 0 else _)
      rw [if_neg hk, if_neg hk]
      have hlt : (a.take (flm a b).1).length + (b.take (flm a b).2.1).length ≤ n ∧
          (a.take (flm a b).1).length + (b.take (flm a b).2.1).length ≤ m := by
        simp only [List.length_take]
        omega
      have hrt : (a.drop ((flm a b).1 + (flm a b).2.2)).length +
            (b.drop ((flm a b).2.1 + (flm a b).2.2)).length ≤ n ∧
          (a.drop ((flm a b).1 + (flm a b).2.2)).length +
            (b.drop ((flm a b).2.1 + (flm a b).2.2)).length ≤ m := by
        simp only [List.length_drop]
        omega
      rw [ih m _ _ hlt.1 hlt.2, ih m _ _ hrt.1 hrt.2]

theorem pyRatio_eq_div (a b : List Char) (h : a.length + b.length ≠ 0) :
    pyRatio a b = (2 * matchedCount a b : ℚ) / ((a.length : ℚ) + (b.length : ℚ)) := by
  unfold pyRatio
  rw [if_neg h, Rat.mkRat_eq_div]
  push_cast
  ring

theorem mkRat_tenths :
    mkRat 9 10 = (9 : ℚ)/10 ∧ mkRat 8 10 = (8 : ℚ)/10 ∧
      mkRat 7 10 = (7 : ℚ)/10 ∧ mkRat 6 10 = (6 : ℚ)/10 := by
  refine ⟨?_, ?_, ?_, ?_⟩ <;> rw [Rat.mkRat_eq_div] <;> norm_num

theorem tier_bonus_eq (sim : ℚ) :
    tier_bonus sim =
      if sim ≥ 9/10 then 55
      else if sim ≥ 8/10 then 40
      else if sim ≥ 7/10 then 25
      else if sim ≥ 6/10 then 12
      else 0 := by
  unfold tier_bonus
  rw [mkRat_tenths.1, mkRat_tenths.2.1, mkRat_tenths.2.2.1, mkRat_tenths.2.2.2]

/-- When no digit-only token is present, `extract_ncl` returns the full
normalized string unchanged. -/
theorem extract_ncl_of_no_digit (v : String)
    (h : (splitWs (replaceColon (normalize_text v).data)).filter isDigits = []) :
    extract_ncl v = normalize_text v := by
  simp only [extract_ncl]
  rw [h]
  rfl

/-- When the digit-only token list is nonempty, `extract_ncl` returns its
last element. -/
theorem extract_ncl_of_getLast (v : String) (p : List Char)
    (h : ((splitWs (replaceColon (normalize_text v).data)).filter isDigits).getLast? =
      some p) :
    extract_ncl v = ⟨p⟩ := by
  simp only [extract_ncl]
  rw [h]

/-- Claim C1: for every candidate name, candidate class and record, the score
computed by the Match Scorer equals
`min(tierBonus + phoneticBonus + classBonus + statusBonus, 100)`, where the
tier bonus is 55 for similarity at least 0.90, else 40 for at least 0.80,
else 25 for at least 0.70, else 12 for at least 0.60, else 0 (highest
applicable tier only); the phonetic bonus is 25 exactly when the two Soundex
codes are equal; the class bonus is 25 exactly when the extracted
classification codes are string-equal; and the status bonus is 15 exactly
when the normalized status contains an active-status phrase. -/
theorem C1_score_formula (cn cc : String) (r : TrademarkRecord) :
    (calculate_match cn cc r).score =
      min ((if similarity_ratio cn r.name ≥ 9/10 then 55
            else if similarity_ratio cn r.name ≥ 8/10 then 40
            else if similarity_ratio cn r.name ≥ 7/10 then 25
            else if similarity_ratio cn r.name ≥ 6/10 then 12
            else 0)
          + (if soundex cn = soundex r.name then 25 else 0)
          + (if extract_ncl cc = extract_ncl r.nice_class then 25 else 0)
          + (if active_status r.status then 15 else 0)) 100 := by
  show match_score (similarity_ratio cn r.name) (soundex cn == soundex r.name)
      (extract_ncl cc == extract_ncl r.nice_class) (active_status r.status) = _
  unfold match_score
  rw [tier_bonus_eq]
  simp only [beq_iff_eq]

/-- Claim C2: the Risk Classifier maps scores of 75 or more to HIGH RISK,
scores in [45, 75) to MEDIUM RISK, and scores below 45 to LOW RISK; in
particular 75 ↦ HIGH, 74 ↦ MEDIUM, 45 ↦ MEDIUM, 44 ↦ LOW, and with zero
records the report's maximum score defaults to 0, giving LOW RISK. -/
theorem C2_risk_thresholds (s : Nat) :
    (classify_risk s = "HIGH RISK" ↔ 75 ≤ s) ∧
    (classify_risk s = "MEDIUM RISK" ↔ 45 ≤ s ∧ s < 75) ∧
    (classify_risk s = "LOW RISK" ↔ s < 45) ∧
    classify_risk 75 = "HIGH RISK" ∧ classify_risk 74 = "MEDIUM RISK" ∧
    classify_risk 45 = "MEDIUM RISK" ∧ classify_risk 44 = "LOW RISK" ∧
    report_highest_score [] = 0 ∧ report_risk_level [] = "LOW RISK" := by
  refine ⟨?_, ?_, ?_, rfl, rfl, rfl, rfl, rfl, rfl⟩ <;>
  · unfold classify_risk
    split_ifs with h1 h2 <;>
      constructor <;>
        intro hh <;>
          first
          | rfl
          | omega
          | exact absurd hh (by decide)

/-- Claim C5 as stated is false on the code: in `soundex "abab"` the two
letters `b` of digit class 1 are separated only by the no-class letter `a`,
yet the encoder emits the class digit twice — the output is `"A110"`, with
two occurrences of the digit 1, not a single collapsed one. -/
theorem C5_counterexample :
    soundex "abab" = "A110" ∧ (soundex "abab").data.count '1' = 2 :=
  ⟨rfl, rfl⟩

/-- Claim C5, amended: in the Soundex walk a no-class character resets the
remembered previous class to the empty code, and a letter carrying a digit
class that is encountered while the remembered class is empty always emits
its digit; consequently a digit class repeated with only no-class characters
in between is emitted twice rather than collapsed (only directly adjacent
repeats of the same class collapse), e.g. `soundex "abab" = "A110"`. -/
theorem C5_amended :
    (∀ (st : List Char × String) (c : Char), soundexCode c = "" →
      soundexStep st c = (st.1, "")) ∧
    (∀ (st : List Char × String) (c : Char), soundexCode c ≠ "" → st.2 = "" →
      soundexStep st c = (st.1 ++ (soundexCode c).data, soundexCode c)) ∧
    soundex "abab" = "A110" := by
  refine ⟨?_, ?_, rfl⟩
  · intro st c h
    simp only [soundexStep]
    rw [h]
    simp
  · intro st c h1 h2
    simp only [soundexStep]
    rw [h2]
    simp [h1]

/-- Claim C5 witness: the amended reset and re-emission properties
instantiated at concrete inputs: `a` (no class) resets the remembered class,
and `b` (class 1) emits its digit when the remembered class is empty. -/
theorem C5_amended_witness :
    soundexCode 'a' = "" ∧ soundexStep (['9'], "1") 'a' = (['9'], "") ∧
    soundexCode 'b' ≠ "" ∧
    soundexStep (['9'], "") 'b' = (['9'] ++ (soundexCode 'b').data, soundexCode 'b') :=
  ⟨rfl, C5_amended.1 (['9'], "1") 'a' rfl,
   by decide, C5_amended.2.1 (['9'], "") 'b' (by decide) rfl⟩

/-- Claim C6: classification-code extraction normalizes the input, replaces
`:` with a space, splits on whitespace, keeps only all-digit tokens and
returns the last one; with no digit-only token it returns the full
normalized string unchanged; in particular
`extract_ncl "NCL(8) 30" = extract_ncl "30" = "30"` and
`extract_ncl "33 : 10" = "10"`. -/
theorem C6_extract_code (v : String) :
    ((splitWs (replaceColon (normalize_text v).data)).filter isDigits = [] →
      extract_ncl v = normalize_text v) ∧
    (∀ p, ((splitWs (replaceColon (normalize_text v).data)).filter isDigits).getLast? =
        some p → extract_ncl v = ⟨p⟩) ∧
    extract_ncl "NCL(8) 30" = "30" ∧ extract_ncl "30" = "30" ∧
    extract_ncl "33 : 10" = "10" :=
  ⟨extract_ncl_of_no_digit v, fun p hp => extract_ncl_of_getLast v p hp, rfl, rfl, rfl⟩

/-- Claim C6 witness: the two conditional branches instantiated concretely:
`"hello"` has no digit-only token and extracts to its normalized self, and
the last digit-only token of `"33 : 10"` is `"10"`. -/
theorem C6_witness :
    extract_ncl "hello" = normalize_text "hello" ∧
    extract_ncl "33 : 10" = ⟨['1', '0']⟩ :=
  ⟨(C6_extract_code "hello").1 rfl, (C6_extract_code "33 : 10").2.1 ['1', '0'] rfl⟩

/-- Claim C7 as stated is false on the code: the fixed phrase set contains no
English "in force" or "allowed", so a record status normalizing to exactly
"in force" or "allowed" is not recognized as active. -/
theorem C7_counterexample :
    normalize_text "in force" = "in force" ∧ active_status "in force" = false ∧
    normalize_text "allowed" = "allowed" ∧ active_status "allowed" = false :=
  ⟨rfl, rfl, rfl, rfl⟩

/-- Claim C7, amended: the active-status test is a case-insensitive substring
check of the normalized status against the fixed set {active, registered,
granted, vigente, deferida, deferido, em vigor, registro de marca em vigor}:
English "active"/"registered"/"granted" plus Portuguese equivalents of
"in force" ("em vigor", "vigente") and "allowed"/"granted" ("deferida",
"deferido"); the English phrases "in force" and "allowed" themselves are not
matched and get no bonus. -/
theorem C7_amended (status : String) :
    (active_status status = true ↔
      ∃ s ∈ ACTIVE_STATUSES, containsSub (normalize_text status).data s.data = true) ∧
    active_status "ACTIVE" = true ∧ active_status "  Registered  " = true ∧
    active_status "granted" = true ∧ active_status "Em Vigor" = true ∧
    active_status "vigente" = true ∧ active_status "deferida" = true ∧
    active_status "deferido" = true ∧
    active_status "Registro de marca em vigor" = true ∧
    active_status "in force" = false ∧ active_status "allowed" = false := by
  refine ⟨?_, rfl, rfl, rfl, rfl, rfl, rfl, rfl, rfl, rfl, rfl⟩
  unfold active_status
  exact List.any_eq_true

/-- Claim C10: when neither classification input contains a digit-only token,
`same_class` is decided by string equality of the normalized full texts; in
particular empty or whitespace-only classification codes both extract to the
empty string, making `same_class` true and awarding the 25-point class bonus
even though neither side names a class. -/
theorem C10_empty_class (c r : String)
    (hc : (splitWs (replaceColon (normalize_text c).data)).filter isDigits = [])
    (hr : (splitWs (replaceColon (normalize_text r).data)).filter isDigits = []) :
    ((extract_ncl c == extract_ncl r) = (normalize_text c == normalize_text r)) ∧
    extract_ncl "" = "" ∧ extract_ncl "   " = "" ∧
    (calculate_match "abc" "" ⟨"xyz", "   ", "expired", "", ""⟩).same_class = true ∧
    (calculate_match "abc" "" ⟨"xyz", "   ", "expired", "", ""⟩).score = 25 := by
  refine ⟨?_, rfl, rfl, rfl, by decide⟩
  rw [extract_ncl_of_no_digit c hc, extract_ncl_of_no_digit r hr]

set_option maxRecDepth 8000 in
/-- Claim C3 as stated is false on the code: scoring the candidate "Solano"
(class 30) against an expired identical-name record of the same class yields
55 + 25 + 25 = 105, capped to 100, while the active-status signal is false —
the maximum score is reached without all four signals firing. -/
theorem C3_counterexample :
    (calculate_match "Solano" "30" ⟨"Solano", "30", "expired", "", ""⟩).score = 100 ∧
    active_status "expired" = false :=
  ⟨by decide, rfl⟩

/-- Claim C3, amended: a score of 100 requires textual similarity of at least
0.80 together with both the phonetic signal and the class signal; the
active-status signal is additionally required only when similarity is below
0.90 (with similarity at least 0.90, 55 + 25 + 25 = 105 already reaches the
cap without it). -/
theorem C3_amended (cn cc : String) (r : TrademarkRecord)
    (h : (calculate_match cn cc r).score = 100) :
    (8 : ℚ)/10 ≤ (calculate_match cn cc r).text_similarity ∧
    (calculate_match cn cc r).phonetic_match = true ∧
    (calculate_match cn cc r).same_class = true ∧
    ((calculate_match cn cc r).text_similarity < 9/10 →
      active_status r.status = true) := by
  have hmain : ∀ (s : ℚ) (p c a : Bool), match_score s p c a = 100 →
      8/10 ≤ s ∧ p = true ∧ c = true ∧ (s < 9/10 → a = true) := by
    intro s p c a hsc
    unfold match_score at hsc
    rw [tier_bonus_eq] at hsc
    rcases p <;> rcases c <;> rcases a <;>
      simp only [eq_self_iff_true, if_true, Bool.false_eq_true, if_false] at hsc ⊢ <;>
        split_ifs at hsc with h1 h2 h3 h4 <;>
          first
          | omega
          | exact ⟨by linarith, trivial, trivial, fun hlt => by linarith⟩
          | exact ⟨by linarith, trivial, trivial, fun hlt => trivial⟩
  have hres := hmain (similarity_ratio cn r.name) (soundex cn == soundex r.name)
    (extract_ncl cc == extract_ncl r.nice_class) (active_status r.status) h
  exact ⟨hres.1, hres.2.1, hres.2.2.1, hres.2.2.2⟩

set_option maxRecDepth 8000 in
/-- Claim C3 witness: the amended implication applied at a concrete input
that reaches score 100 (identical names, same class, active status). -/
theorem C3_amended_witness :
    (calculate_match "Solano" "30" ⟨"Solano", "NCL(8) 30", "vigente", "", ""⟩).score = 100 ∧
    ((8 : ℚ)/10 ≤ (calculate_match "Solano" "30"
        ⟨"Solano", "NCL(8) 30", "vigente", "", ""⟩).text_similarity ∧
      (calculate_match "Solano" "30"
        ⟨"Solano", "NCL(8) 30", "vigente", "", ""⟩).phonetic_match = true ∧
      (calculate_match "Solano" "30"
        ⟨"Solano", "NCL(8) 30", "vigente", "", ""⟩).same_class = true ∧
      ((calculate_match "Solano" "30"
          ⟨"Solano", "NCL(8) 30", "vigente", "", ""⟩).text_similarity < 9/10 →
        active_status "vigente" = true)) :=
  ⟨by decide,
   C3_amended "Solano" "30" ⟨"Solano", "NCL(8) 30", "vigente", "", ""⟩ (by decide)⟩

/-- Claim C8: increasing any one of the four scoring signals (similarity
tier, phonetic match, class match, active status) while holding the other
three fixed never decreases the resulting score, and every score lies in
[0, 100] (scores are naturals, so 0 is a lower bound by construction). -/
theorem C8_monotone_bounded :
    (∀ (s s' : ℚ) (p c a : Bool), s ≤ s' →
      match_score s p c a ≤ match_score s' p c a) ∧
    (∀ (s : ℚ) (c a : Bool), match_score s false c a ≤ match_score s true c a) ∧
    (∀ (s : ℚ) (p a : Bool), match_score s p false a ≤ match_score s p true a) ∧
    (∀ (s : ℚ) (p c : Bool), match_score s p c false ≤ match_score s p c true) ∧
    (∀ (s : ℚ) (p c a : Bool), match_score s p c a ≤ 100) ∧
    (∀ (cn cc : String) (r : TrademarkRecord),
      (calculate_match cn cc r).score ≤ 100) := by
  have tiermono : ∀ s s' : ℚ, s ≤ s' → tier_bonus s ≤ tier_bonus s' := by
    intro s s' hss
    rw [tier_bonus_eq, tier_bonus_eq]
    split_ifs <;> first | omega | (exfalso; linarith)
  refine ⟨?_, ?_, ?_, ?_, ?_, ?_⟩
  · intro s s' p c a hss
    have ht := tiermono s s' hss
    unfold match_score
    rcases p <;> rcases c <;> rcases a <;>
      simp only [eq_self_iff_true, if_true, Bool.false_eq_true, if_false] <;> omega
  · intro s c a
    unfold match_score
    rcases c <;> rcases a <;>
      simp only [eq_self_iff_true, if_true, Bool.false_eq_true, if_false] <;> omega
  · intro s p a
    unfold match_score
    rcases p <;> rcases a <;>
      simp only [eq_self_iff_true, if_true, Bool.false_eq_true, if_false] <;> omega
  · intro s p c
    unfold match_score
    rcases p <;> rcases c <;>
      simp only [eq_self_iff_true, if_true, Bool.false_eq_true, if_false] <;> omega
  · intro s p c a
    exact Nat.min_le_right _ _
  · intro cn cc r
    exact Nat.min_le_right _ _

/-- Claim C8 witness: similarity monotonicity applied at the concrete pair
1/2 ≤ 1 with all other signals true. -/
theorem C8_witness :
    (1 : ℚ)/2 ≤ 1 ∧ match_score (1/2) true true true ≤ match_score 1 true true true :=
  ⟨by norm_num, C8_monotone_bounded.1 (1/2) 1 true true true (by norm_num)⟩

/-- Claim C10 witness: the hypotheses discharged at the empty and
whitespace-only classification inputs. -/
theorem C10_witness :
    ((extract_ncl "" == extract_ncl "   ") = (normalize_text "" == normalize_text "   ")) ∧
    extract_ncl "" = "" ∧ extract_ncl "   " = "" ∧
    (calculate_match "abc" "" ⟨"xyz", "   ", "expired", "", ""⟩).same_class = true ∧
    (calculate_match "abc" "" ⟨"xyz", "   ", "expired", "", ""⟩).score = 25 :=
  C10_empty_class "" "   " rfl rfl

/-- Inserting with the descending-score relation commutes with filtering on
a fixed score value: `orderedInsert` walks past exactly the elements of
strictly greater score, so the filtered sublist for a single score value is
simply prepended to. -/
theorem filter_score_orderedInsert (s : Nat) (x : MatchResult) :
    ∀ l : List MatchResult,
      (List.orderedInsert scoreGE x l).filter (fun m => m.score == s) =
        (x :: l).filter (fun m => m.score == s)
  | [] => rfl
  | y :: ys => by
    by_cases hxy : scoreGE x y
    · have hstep : List.orderedInsert scoreGE x (y :: ys) = x :: y :: ys := by
        simp [List.orderedInsert, hxy]
      rw [hstep]
    · have hstep : List.orderedInsert scoreGE x (y :: ys) =
          y :: List.orderedInsert scoreGE x ys := by
        simp [List.orderedInsert, hxy]
      rw [hstep]
      simp only [List.filter_cons, filter_score_orderedInsert s x ys]
      by_cases hpx : x.score = s
      · have hpy : ¬ y.score = s := by
          unfold scoreGE at hxy
          omega
        simp [hpx, hpy]
      · simp [hpx]

/-- Stability of the report's sort: filtering the sorted list on any fixed
score value yields exactly the input list filtered on that value, i.e. the
relative order of equal-score results is preserved. -/
theorem filter_score_insertionSort (s : Nat) :
    ∀ ms : List MatchResult,
      (List.insertionSort scoreGE ms).filter (fun m => m.score == s) =
        ms.filter (fun m => m.score == s)
  | [] => rfl
  | x :: xs => by
    show (List.orderedInsert scoreGE x (List.insertionSort scoreGE xs)).filter _ = _
    rw [filter_score_orderedInsert s x (List.insertionSort scoreGE xs)]
    simp only [List.filter_cons]
    rw [filter_score_insertionSort s xs]

/-- Claim C9: for every list of match results, the Report Generator selects
the first five entries of a stable descending sort by score: the sorted list
is a permutation of the input, sorted by non-increasing score, and preserves
the original input order among equal scores (its filtered sublist at every
score value is unchanged); the emitted risk tier is the Risk Classifier
applied to the first selected result's score, with 0 used when the list is
empty. -/
theorem C9_report_selection (ms : List MatchResult) :
    top_matches ms = (sortedByScoreDesc ms).take 5 ∧
    (sortedByScoreDesc ms).Perm ms ∧
    List.Sorted scoreGE (sortedByScoreDesc ms) ∧
    (∀ s : Nat, (sortedByScoreDesc ms).filter (fun m => m.score == s) =
      ms.filter (fun m => m.score == s)) ∧
    (top_matches ms).length = min 5 ms.length ∧
    report_risk_level ms =
      classify_risk (match top_matches ms with | [] => 0 | m :: _ => m.score) := by
  refine ⟨rfl, List.perm_insertionSort scoreGE ms, List.sorted_insertionSort scoreGE ms,
    fun s => filter_score_insertionSort s ms, ?_, rfl⟩
  show ((List.insertionSort scoreGE ms).take 5).length = min 5 ms.length
  rw [List.length_take, (List.perm_insertionSort scoreGE ms).length_eq]

/-- The base is a lower bound of a running maximum fold. -/
theorem base_le_foldl_max {α : Type} (f : α → Nat) :
    ∀ (L : List α) (base : Nat), base ≤ L.foldl (fun m p => max m (f p)) base
  | [], base => le_refl base
  | y :: ys, base => by
    rw [List.foldl_cons]
    exact le_trans (Nat.le_max_left _ _) (base_le_foldl_max f ys _)

/-- Every listed value is a lower bound of the running maximum fold. -/
theorem le_foldl_max {α : Type} (f : α → Nat) :
    ∀ (L : List α) (base : Nat) (x : α), x ∈ L →
      f x ≤ L.foldl (fun m p => max m (f p)) base
  | [], _, x, hx => absurd hx (List.not_mem_nil x)
  | y :: ys, base, x, hx => by
    rw [List.foldl_cons]
    rcases List.mem_cons.mp hx with h | h
    · subst h
      exact le_trans (Nat.le_max_right _ _) (base_le_foldl_max f ys _)
    · exact le_foldl_max f ys _ x h

/-- The running maximum fold is bounded by any common upper bound. -/
theorem foldl_max_le {α : Type} (f : α → Nat) (n : Nat) :
    ∀ (L : List α) (base : Nat), base ≤ n → (∀ p ∈ L, f p ≤ n) →
      L.foldl (fun m p => max m (f p)) base ≤ n
  | [], _, hb, _ => hb
  | y :: ys, base, hb, hall => by
    rw [List.foldl_cons]
    refine foldl_max_le f n ys _ ?_ (fun p hp => hall p (List.mem_cons_of_mem y hp))
    have := hall y (List.mem_cons_self y ys)
    omega

theorem mem_cands {a b : List Char} {i j : Nat} :
    (i, j) ∈ cands a b ↔ i < a.length ∧ j < b.length := by
  unfold cands
  simp [List.mem_flatMap, List.mem_map, List.mem_range, Prod.ext_iff]

/-- On the diagonal of a self-comparison the common suffix is full. -/
theorem suff_diag (a : List Char) : ∀ i, i < a.length → suff a a i i = i + 1 := by
  intro i
  induction i with
  | zero =>
    intro h
    rw [suff, List.getElem?_eq_getElem h]
    simp
  | succ n ih =>
    intro h
    rw [suff, List.getElem?_eq_getElem h]
    simp [ih (by omega)]

/-- Comparing a nonempty string with itself, the longest block has the full
length. -/
theorem bestK_self (a : List Char) (h : a ≠ []) : bestK a a = a.length := by
  have hn : 0 < a.length := List.length_pos.mpr h
  apply le_antisymm
  · unfold bestK
    refine foldl_max_le _ _ (cands a a) 0 (by omega) ?_
    intro p _
    obtain ⟨i, j⟩ := p
    have h1 := suff_le_fst a a i j
    have h2 := suff_le_snd a a i j
    by_cases hz : suff a a i j = 0
    · simp only [hz]
      omega
    · obtain ⟨hia, -⟩ := suff_pos a a i j hz
      simp only []
      omega
  · have hmem : (a.length - 1, a.length - 1) ∈ cands a a :=
      mem_cands.mpr ⟨by omega, by omega⟩
    have hd := suff_diag a (a.length - 1) (by omega)
    have hle := le_foldl_max (fun p => suff a a p.1 p.2) (cands a a) 0
      (a.length - 1, a.length - 1) hmem
    unfold bestK
    simp only at hle
    rw [hd] at hle
    omega

/-- Comparing a nonempty string with itself, `find_longest_match` returns the
whole string as the single block. -/
theorem flm_self (a : List Char) (h : a ≠ []) : flm a a = (0, 0, a.length) := by
  have hn : 0 < a.length := List.length_pos.mpr h
  have hK := bestK_self a h
  unfold flm
  rw [hK, if_neg (by omega)]
  rcases hf : (cands a a).find? (fun p => suff a a p.1 p.2 == a.length) with _ | ⟨i, j⟩
  · exfalso
    rw [List.find?_eq_none] at hf
    refine hf (a.length - 1, a.length - 1) (mem_cands.mpr ⟨by omega, by omega⟩) ?_
    have hd := suff_diag a (a.length - 1) (by omega)
    simp only [hd, beq_iff_eq]
    omega
  · have hp := List.find?_some hf
    have hsuff : suff a a i j = a.length := by simpa using hp
    have hle1 := suff_le_fst a a i j
    have hle2 := suff_le_snd a a i j
    have hpos : suff a a i j ≠ 0 := by omega
    obtain ⟨hia, hja⟩ := suff_pos a a i j hpos
    have hi : i = a.length - 1 := by omega
    have hj : j = a.length - 1 := by omega
    subst hi
    subst hj
    have h0 : a.length - 1 + 1 - a.length = 0 := by omega
    rw [hf]
    dsimp only
    rw [h0]

/-- Self-comparison matches every character. -/
theorem matchedCount_self (a : List Char) : matchedCount a a = a.length := by
  by_cases h : a = []
  · subst h
    rfl
  · have hn : 0 < a.length := List.length_pos.mpr h
    have hflm := flm_self a h
    unfold matchedCount
    obtain ⟨m, hm⟩ : ∃ m, a.length + a.length = m + 1 :=
      ⟨a.length + a.length - 1, by omega⟩
    rw [hm]
    simp only [matchedCountF, hflm]
    rw [if_neg (by omega)]
    simp [matchedCountF_nil]

/-- Claim C4 as stated is false on the code: SequenceMatcher's block-matching
ratio depends on the argument order — comparing "aba" against "babba" matches
3 characters (ratio 3/4), but the reversed comparison matches only 2 (ratio
1/2). -/
theorem C4_counterexample :
    similarity_ratio "aba" "babba" = mkRat 3 4 ∧
    similarity_ratio "babba" "aba" = mkRat 1 2 ∧
    mkRat 3 4 = (3 : ℚ)/4 ∧ mkRat 1 2 = (1 : ℚ)/2 ∧
    similarity_ratio "aba" "babba" ≠ similarity_ratio "babba" "aba" :=
  ⟨by decide, by decide,
   by rw [Rat.mkRat_eq_div]; norm_num, by rw [Rat.mkRat_eq_div]; norm_num,
   by decide⟩

/-- Claim C4, amended: textual similarity is not symmetric in general (see
the counterexample); the reflexivity half of the spec's similarity contract
does hold: `similarity_ratio a a = 1.0` for every input string, including
the empty string. -/
theorem C4_amended (a : String) : similarity_ratio a a = 1 := by
  unfold similarity_ratio pyRatio
  by_cases h : (normalize_text a).data.length + (normalize_text a).data.length = 0
  · rw [if_pos h]
  · rw [if_neg h, matchedCount_self, Rat.mkRat_eq_div]
    have h2 : (((normalize_text a).data.length + (normalize_text a).data.length : Nat) : ℚ) ≠ 0 := by
      exact_mod_cast (show ((normalize_text a).data.length +
        (normalize_text a).data.length : Nat) ≠ 0 by omega)
    rw [div_eq_one_iff_eq h2]
    push_cast
    ring

end INPI
